import Mathlib

/-!
Shallow embedding of the plugin / thumbnail-queue subsystem of
`Videolnsight pro-v1.py` (class `VideoInfoViewer`) and of the bulk
enable/disable dialog in `PluginVault Pro.py`, with proofs of the queue
invariants, FIFO admission, the plugin lifecycle contracts, the registry
scan and the enabled-set persistence round-trip.
-/

namespace VideoInsight

/-! ### Thumbnail work queue

State of the bounded-concurrency thumbnail queue owned by `VideoInfoViewer`:
`thumbnail_queue` (pending file paths, FIFO list; the `QListWidgetItem`
paired with each path never influences control flow and is omitted),
`thumbnail_threads` (keys of the dict mapping a started file path to its
worker thread, in insertion order), `active_thumbnail_threads` (a Python
int, so modelled as `Int`) and `max_concurrent_thumbnails` (set to 3 in
`__init__` and never reassigned). -/
structure QState where
  queue : List String
  threads : List String
  active : Int
  maxConc : Nat
deriving DecidableEq, Repr

/-- The `while` loop of `process_thumbnail_queue`: while
`active_thumbnail_threads < max_concurrent_thumbnails` and the queue is
nonempty, pop the head; if its path is already in `thumbnail_threads`,
skip it (`continue`); otherwise record it in `thumbnail_threads`, start
the worker and increment the counter.  Returns the final
(queue, threads, active) triple. -/
def processGo (maxConc : Nat) : List String → List String → Int → List String × List String × Int
  | [], threads, active => ([], threads, active)
  | fp :: rest, threads, active =>
    if active < (maxConc : Int) then
      if fp ∈ threads then processGo maxConc rest threads active
      else processGo maxConc rest (threads ++ [fp]) (active + 1)
    else (fp :: rest, threads, active)

/-- `VideoInfoViewer.process_thumbnail_queue`. -/
def process_thumbnail_queue (st : QState) : QState :=
  let r := processGo st.maxConc st.queue st.threads st.active
  { st with queue := r.1, threads := r.2.1, active := r.2.2 }

/-- `VideoInfoViewer.queue_thumbnail_generation`: returns immediately when
the path already has an entry in `thumbnail_threads`; otherwise appends to
`thumbnail_queue` and runs `process_thumbnail_queue`.  (The pending queue
itself is not consulted by the early-return test.) -/
def queue_thumbnail_generation (st : QState) (fp : String) : QState :=
  if fp ∈ st.threads then st
  else process_thumbnail_queue { st with queue := st.queue ++ [fp] }

/-- `VideoInfoViewer.on_thumbnail_generated`: when the path is tracked,
pop it from `thumbnail_threads`, decrement the counter and re-run
`process_thumbnail_queue`.  (Setting the icon does not affect the queue.) -/
def on_thumbnail_generated (st : QState) (fp : String) : QState :=
  if fp ∈ st.threads then
    process_thumbnail_queue
      { st with threads := st.threads.erase fp, active := st.active - 1 }
  else st

/-- `VideoInfoViewer.on_thumbnail_error`: identical queue bookkeeping to
`on_thumbnail_generated`. -/
def on_thumbnail_error (st : QState) (fp : String) : QState :=
  if fp ∈ st.threads then
    process_thumbnail_queue
      { st with threads := st.threads.erase fp, active := st.active - 1 }
  else st

/-- One selected item's worth of `VideoInfoViewer.remove_selected_files`:
if the path has an entry in `thumbnail_threads` the thread is stopped,
the entry popped, the counter decremented and the queue re-processed.
The method never touches `thumbnail_queue`, so a still-pending path is
left in the pending list. -/
def remove_selected_file (st : QState) (fp : String) : QState :=
  if fp ∈ st.threads then
    process_thumbnail_queue
      { st with threads := st.threads.erase fp, active := st.active - 1 }
  else st

/-- `VideoInfoViewer.clear_file_list`: stops every thread, clears
`thumbnail_threads` and `thumbnail_queue` and resets the counter to 0. -/
def clear_file_list (st : QState) : QState :=
  { st with queue := [], threads := [], active := 0 }

/-- The queue operations reachable from the UI. -/
inductive QOp where
  | enqueue (fp : String)
  | generated (fp : String)
  | errored (fp : String)
  | removeFile (fp : String)
  | clear
deriving DecidableEq, Repr

def stepOp : QOp → QState → QState
  | .enqueue fp, st => queue_thumbnail_generation st fp
  | .generated fp, st => on_thumbnail_generated st fp
  | .errored fp, st => on_thumbnail_error st fp
  | .removeFile fp, st => remove_selected_file st fp
  | .clear, st => clear_file_list st

/-- The state set up by `VideoInfoViewer.__init__`. -/
def initQState : QState := ⟨[], [], 0, 3⟩

def runOps (ops : List QOp) : QState := ops.foldl (fun st op => stepOp op st) initQState

/-! ### Queue lemmas -/

theorem processGo_active_le (maxConc : Nat) (q t : List String) (a : Int)
    (h : a ≤ (maxConc : Int)) : (processGo maxConc q t a).2.2 ≤ (maxConc : Int) := by
  induction q generalizing t a with
  | nil => simpa [processGo] using h
  | cons fp rest ih =>
    by_cases hlt : a < (maxConc : Int)
    · by_cases hm : fp ∈ t
      · simp only [processGo, if_pos hlt, if_pos hm]
        exact ih t a h
      · simp only [processGo, if_pos hlt, if_neg hm]
        exact ih _ _ (by omega)
    · simpa [processGo, if_neg hlt] using h

/-- The admission loop pops a prefix of the pending queue, appends the
admitted paths (in queue order) at the tail of the thread table, and
increments the counter once per admitted path. -/
theorem processGo_spec (maxConc : Nat) (q t : List String) (a : Int) :
    ∃ l : List String,
      (processGo maxConc q t a).2.1 = t ++ l ∧ l.Sublist q ∧
      (processGo maxConc q t a).2.2 = a + l.length ∧
      (processGo maxConc q t a).1 <:+ q := by
  induction q generalizing t a with
  | nil => exact ⟨[], by simp [processGo]⟩
  | cons fp rest ih =>
    by_cases hlt : a < (maxConc : Int)
    · by_cases hm : fp ∈ t
      · obtain ⟨l, h1, h2, h3, h4⟩ := ih t a
        refine ⟨l, ?_, h2.cons fp, ?_, ?_⟩
        · simpa [processGo, if_pos hlt, if_pos hm] using h1
        · simpa [processGo, if_pos hlt, if_pos hm] using h3
        · simp only [processGo, if_pos hlt, if_pos hm]
          exact h4.trans (List.suffix_cons fp rest)
      · obtain ⟨l, h1, h2, h3, h4⟩ := ih (t ++ [fp]) (a + 1)
        refine ⟨fp :: l, ?_, h2.cons₂ fp, ?_, ?_⟩
        · simp only [processGo, if_pos hlt, if_neg hm]
          simpa [List.append_assoc] using h1
        · simp only [processGo, if_pos hlt, if_neg hm, List.length_cons]
          rw [h3]; push_cast; ring
        · simp only [processGo, if_pos hlt, if_neg hm]
          exact h4.trans (List.suffix_cons fp rest)
    · exact ⟨[], by simp [processGo, if_neg hlt], List.nil_sublist _,
        by simp [processGo, if_neg hlt], by simp [processGo, if_neg hlt]⟩

/-- Invariant carried by every reachable queue state: the counter mirrors
the size of the thread table and stays below the ceiling. -/
def QInv (st : QState) : Prop :=
  st.active = (st.threads.length : Int) ∧ st.active ≤ (st.maxConc : Int)

theorem process_thumbnail_queue_inv (st : QState) (h : QInv st) :
    QInv (process_thumbnail_queue st) := by
  obtain ⟨l, h1, _, h3, _⟩ := processGo_spec st.maxConc st.queue st.threads st.active
  constructor
  · show (processGo st.maxConc st.queue st.threads st.active).2.2 =
      (((processGo st.maxConc st.queue st.threads st.active).2.1).length : Int)
    rw [h3, h1, h.1]
    push_cast [List.length_append]
    ring
  · exact processGo_active_le _ _ _ _ h.2

theorem stepOp_maxConc (op : QOp) (st : QState) : (stepOp op st).maxConc = st.maxConc := by
  cases op <;>
    simp [stepOp, queue_thumbnail_generation, on_thumbnail_generated, on_thumbnail_error,
      remove_selected_file, clear_file_list, process_thumbnail_queue] <;>
    split <;> rfl

theorem stepOp_inv (op : QOp) (st : QState) (h : QInv st) : QInv (stepOp op st) := by
  have hlen : ∀ fp : String, fp ∈ st.threads →
      QInv { st with threads := st.threads.erase fp, active := st.active - 1 } := by
    intro fp hm
    have hpos : 0 < st.threads.length := List.length_pos.mpr (List.ne_nil_of_mem hm)
    have herase := List.length_erase_of_mem hm
    refine ⟨?_, ?_⟩
    · show st.active - 1 = ((st.threads.erase fp).length : Int)
      rw [herase, h.1]
      omega
    · show st.active - 1 ≤ (st.maxConc : Int)
      have := h.2
      omega
  cases op with
  | enqueue fp =>
    by_cases hm : fp ∈ st.threads
    · simpa [stepOp, queue_thumbnail_generation, hm] using h
    · simp only [stepOp, queue_thumbnail_generation, if_neg hm]
      exact process_thumbnail_queue_inv _ ⟨h.1, h.2⟩
  | generated fp =>
    by_cases hm : fp ∈ st.threads
    · simp only [stepOp, on_thumbnail_generated, if_pos hm]
      exact process_thumbnail_queue_inv _ (hlen fp hm)
    · simpa [stepOp, on_thumbnail_generated, hm] using h
  | errored fp =>
    by_cases hm : fp ∈ st.threads
    · simp only [stepOp, on_thumbnail_error, if_pos hm]
      exact process_thumbnail_queue_inv _ (hlen fp hm)
    · simpa [stepOp, on_thumbnail_error, hm] using h
  | removeFile fp =>
    by_cases hm : fp ∈ st.threads
    · simp only [stepOp, remove_selected_file, if_pos hm]
      exact process_thumbnail_queue_inv _ (hlen fp hm)
    · simpa [stepOp, remove_selected_file, hm] using h
  | clear => exact ⟨by simp [stepOp, clear_file_list], by simp [stepOp, clear_file_list]⟩

theorem foldl_inv (ops : List QOp) (st : QState) (h : QInv st) :
    QInv (ops.foldl (fun st op => stepOp op st) st) := by
  induction ops generalizing st with
  | nil => exact h
  | cons op rest ih => exact ih _ (stepOp_inv op st h)

theorem runOps_inv (ops : List QOp) : QInv (runOps ops) :=
  foldl_inv ops initQState ⟨by simp [initQState], by simp [initQState]⟩

theorem foldl_maxConc (ops : List QOp) (st : QState) :
    (ops.foldl (fun st op => stepOp op st) st).maxConc = st.maxConc := by
  induction ops generalizing st with
  | nil => rfl
  | cons op rest ih => rw [List.foldl_cons, ih, stepOp_maxConc]

theorem runOps_maxConc (ops : List QOp) : (runOps ops).maxConc = 3 :=
  foldl_maxConc ops initQState

/-! ### Claim theorems about the queue -/

/-- C1: for every sequence of enqueue / completion / error / removal /
clear operations on the thumbnail queue, `active_thumbnail_threads` never
exceeds the fixed ceiling of 3 (`max_concurrent_thumbnails`), and across
any further single operation the counter increases exactly when a queued
job is admitted into the thread table and decreases exactly when a
previously admitted job leaves it (terminal state or removal). -/
theorem active_le_ceiling (ops : List QOp) :
    (runOps ops).active ≤ 3 ∧
    ∀ op : QOp,
      ((runOps ops).active < (stepOp op (runOps ops)).active ↔
        (runOps ops).threads.length < (stepOp op (runOps ops)).threads.length) ∧
      ((stepOp op (runOps ops)).active < (runOps ops).active ↔
        (stepOp op (runOps ops)).threads.length < (runOps ops).threads.length) := by
  have h := runOps_inv ops
  have hm := runOps_maxConc ops
  refine ⟨?_, ?_⟩
  · have := h.2
    rw [hm] at this
    exact_mod_cast this
  · intro op
    have h' := stepOp_inv op _ h
    rw [h.1, h'.1]
    constructor <;> omega

/-- C10: after every queue operation the active-job counter equals the
number of entries in the thread table:
`active_thumbnail_threads = |thumbnail_threads|`. -/
theorem active_eq_threads_length (ops : List QOp) :
    (runOps ops).active = ((runOps ops).threads.length : Int) :=
  (runOps_inv ops).1

/-- C2: pending jobs are admitted in strict FIFO order: each admission
round consumes entries from the head of the pending queue, appending the
admitted paths in enqueue order; concretely (ceiling 3 with filler job E),
after enqueuing A, B, C, D, completing A admits C (not D) and then
completing B admits D. -/
theorem fifo_admission :
    (∀ (maxConc : Nat) (q t : List String) (a : Int), ∃ l : List String,
        (processGo maxConc q t a).2.1 = t ++ l ∧ l.Sublist q ∧
        (processGo maxConc q t a).2.2 = a + l.length ∧
        (processGo maxConc q t a).1 <:+ q) ∧
    runOps [.enqueue "E", .enqueue "A", .enqueue "B", .enqueue "C", .enqueue "D",
        .generated "A"] =
      ⟨["D"], ["E", "B", "C"], 3, 3⟩ ∧
    runOps [.enqueue "E", .enqueue "A", .enqueue "B", .enqueue "C", .enqueue "D",
        .generated "A", .generated "B"] =
      ⟨[], ["E", "C", "D"], 3, 3⟩ :=
  ⟨processGo_spec, by decide, by decide⟩

/-- C3 counterexample: with the ceiling reached (A, B, C active) and D
still pending, a second enqueue of D is not a no-op — the resulting state
differs from the state after the first enqueue alone, because
`queue_thumbnail_generation` only tests `thumbnail_threads`, never the
pending `thumbnail_queue`, so a duplicate queue entry is appended. -/
theorem enqueue_pending_duplicate :
    runOps [.enqueue "A", .enqueue "B", .enqueue "C", .enqueue "D", .enqueue "D"] ≠
      runOps [.enqueue "A", .enqueue "B", .enqueue "C", .enqueue "D"] := by
  decide

/-- C3 (amended): enqueuing a thumbnail job for a target that already has
an active job is a no-op (the state is unchanged); deduplication does not
consult the pending queue, so enqueuing a target whose job is still
queued appends a second queue entry for it. -/
theorem enqueue_dedup_active_only :
    (∀ (st : QState) (fp : String), fp ∈ st.threads →
      queue_thumbnail_generation st fp = st) ∧
    (runOps [.enqueue "A", .enqueue "B", .enqueue "C", .enqueue "D",
        .enqueue "D"]).queue = ["D", "D"] := by
  refine ⟨?_, by decide⟩
  intro st fp h
  simp [queue_thumbnail_generation, h]

/-- C3 witness: a concrete instance of the amended no-op clause. -/
theorem enqueue_dedup_active_only_witness :
    queue_thumbnail_generation ⟨[], ["A"], 1, 3⟩ "A" = ⟨[], ["A"], 1, 3⟩ :=
  enqueue_dedup_active_only.1 ⟨[], ["A"], 1, 3⟩ "A" (by decide)

/-- C4: evaluation of the code at the failing input.  With A, B, C active
and D still queued, removing D from the file list leaves D's job in
`thumbnail_queue` (the method never purges the pending list), and once A
completes, D's work is started even though its file was removed. -/
theorem removed_file_still_pending :
    (runOps [.enqueue "A", .enqueue "B", .enqueue "C", .enqueue "D",
        .removeFile "D"]).queue = ["D"] ∧
    "D" ∈ (runOps [.enqueue "A", .enqueue "B", .enqueue "C", .enqueue "D",
        .removeFile "D", .generated "A"]).threads := by
  decide

/-! ### Plugin lifecycle (`load_plugin` / `unload_plugin`)

`self.plugins_loaded` is a dict mapping a plugin name to
`{"module": module, "handle": handle}`; since dict keys are unique it is
modelled as an association list `name ↦ handle` (the module object itself
carries no further lifecycle-relevant state; `handle` is `None` when the
module has no `register` attribute, so it is an `Option Nat`).

What the dynamically loaded module does is abstracted by
`ModuleBehavior`: `exec_module` may raise, the module may lack a
`register` callable, `register(self)` may raise, or it may return a
handle. -/

inductive ModuleBehavior where
  | execFails
  | noRegister
  | registerRaises
  | registersOk (handle : Nat)
deriving DecidableEq, Repr

abbrev LoadedSet := List (String × Option Nat)

/-- `VideoInfoViewer.load_plugin`.  `found` models `self.plugins_found`
together with the behaviour of the module at the recorded path (`none`
when the name is absent from the scan result).  The result is the new
`plugins_loaded`, the returned boolean, and how many times the module's
`register` entry point was invoked during the call.  The `try` block
catches any exception from `exec_module` or `register`, shows the error
dialog, and returns `False` without touching `plugins_loaded`. -/
def load_plugin (found : String → Option ModuleBehavior) (loaded : LoadedSet)
    (name : String) : LoadedSet × Bool × Nat :=
  if (loaded.lookup name).isSome then (loaded, true, 0)
  else
    match found name with
    | none => (loaded, false, 0)
    | some .execFails => (loaded, false, 0)
    | some .registerRaises => (loaded, false, 1)
    | some .noRegister => (loaded ++ [(name, none)], true, 0)
    | some (.registersOk h) => (loaded ++ [(name, some h)], true, 1)

/-- `VideoInfoViewer.unload_plugin`: `plugins_loaded.pop(name, None)`
removes the entry up front (modelled as a key filter, which coincides
with dict `pop` because keys are unique); a missing name returns with no
change.  `unreg` tells whether the module's `unregister` raises; the
surrounding `try/except` swallows the outcome either way, so the result
does not depend on it. -/
def unload_plugin (unreg : String → Bool) (loaded : LoadedSet) (name : String) :
    LoadedSet :=
  if (loaded.lookup name).isSome then
    loaded.filter (fun p => !(p.1 == name))
  else loaded

theorem lookup_append_right {loaded : LoadedSet} {name : String} (v : Option Nat)
    (h : loaded.lookup name = none) :
    (loaded ++ [(name, v)]).lookup name = some v := by
  induction loaded with
  | nil => simp [List.lookup_cons]
  | cons p rest ih =>
    obtain ⟨k, b⟩ := p
    by_cases hk : name = k
    · simp [List.lookup_cons, hk] at h
    · have hb : (name == k) = false := by simpa [beq_iff_eq] using hk
      rw [List.lookup_cons] at h
      simp only [hb] at h
      rw [List.cons_append, List.lookup_cons]
      simp only [hb]
      exact ih h

theorem lookup_filter_ne (loaded : LoadedSet) (name : String) :
    (loaded.filter (fun p => !(p.1 == name))).lookup name = none := by
  induction loaded with
  | nil => simp
  | cons p rest ih =>
    obtain ⟨k, b⟩ := p
    by_cases hk : k = name
    · have hb : (!((k, b).1 == name)) = false := by simp [hk]
      simpa [List.filter_cons, hb] using ih
    · have hb : (!((k, b).1 == name)) = true := by simpa [beq_iff_eq] using hk
      have hb2 : (name == k) = false := by
        simpa [beq_iff_eq] using fun hh => hk hh.symm
      rw [List.filter_cons, if_pos hb, List.lookup_cons]
      simp only [hb2]
      exact ih

theorem filter_ne_of_lookup_none (loaded : LoadedSet) (name : String)
    (h : loaded.lookup name = none) :
    loaded.filter (fun p => !(p.1 == name)) = loaded := by
  induction loaded with
  | nil => rfl
  | cons p rest ih =>
    obtain ⟨k, b⟩ := p
    by_cases hk : name = k
    · simp [List.lookup_cons, hk] at h
    · have hb : (name == k) = false := by simpa [beq_iff_eq] using hk
      rw [List.lookup_cons] at h
      simp only [hb] at h
      have hb2 : (!((k, b).1 == name)) = true := by
        simpa [beq_iff_eq] using fun hh => hk hh.symm
      rw [List.filter_cons, if_pos hb2, ih h]

/-- C5: loading is idempotent.  If `name` is in the scan result with a
working `register` entry point and is not yet loaded, then calling
`load_plugin` twice in a row succeeds both times, invokes `register`
exactly once in total, leaves `name` loaded with its stored handle, and
the second call changes nothing. -/
theorem load_plugin_idempotent (found : String → Option ModuleBehavior)
    (loaded : LoadedSet) (name : String) (h : Nat)
    (hf : found name = some (.registersOk h))
    (hnl : loaded.lookup name = none) :
    (load_plugin found loaded name).2.1 = true ∧
    (load_plugin found (load_plugin found loaded name).1 name).2.1 = true ∧
    (load_plugin found (load_plugin found loaded name).1 name).1 =
      (load_plugin found loaded name).1 ∧
    (load_plugin found loaded name).2.2 +
      (load_plugin found (load_plugin found loaded name).1 name).2.2 = 1 ∧
    ((load_plugin found loaded name).1.lookup name) = some (some h) := by
  have h1 : load_plugin found loaded name = (loaded ++ [(name, some h)], true, 1) := by
    simp [load_plugin, hnl, hf]
  have h2 : (loaded ++ [(name, some h)]).lookup name = some (some h) :=
    lookup_append_right (some h) hnl
  rw [h1]
  refine ⟨rfl, ?_, ?_, ?_, h2⟩ <;> simp [load_plugin, h2]

/-- C5 witness: concrete instantiation with one discoverable plugin. -/
theorem load_plugin_idempotent_witness :
    (load_plugin (fun _ => some (.registersOk 7)) [] "p").2.1 = true ∧
    (load_plugin (fun _ => some (.registersOk 7))
        (load_plugin (fun _ => some (.registersOk 7)) [] "p").1 "p").2.1 = true ∧
    (load_plugin (fun _ => some (.registersOk 7))
        (load_plugin (fun _ => some (.registersOk 7)) [] "p").1 "p").1 =
      (load_plugin (fun _ => some (.registersOk 7)) [] "p").1 ∧
    (load_plugin (fun _ => some (.registersOk 7)) [] "p").2.2 +
      (load_plugin (fun _ => some (.registersOk 7))
        (load_plugin (fun _ => some (.registersOk 7)) [] "p").1 "p").2.2 = 1 ∧
    ((load_plugin (fun _ => some (.registersOk 7)) [] "p").1.lookup "p") =
      some (some 7) :=
  load_plugin_idempotent (fun _ => some (.registersOk 7)) [] "p" 7 rfl rfl

/-- C6: if an error is raised while executing the plugin's code or while
running its `register` entry point, `load_plugin` catches it, leaves
`plugins_loaded` unchanged (no module handle retained) and returns
failure. -/
theorem load_plugin_failure (found : String → Option ModuleBehavior)
    (loaded : LoadedSet) (name : String)
    (hnl : loaded.lookup name = none)
    (hf : found name = some .execFails ∨ found name = some .registerRaises) :
    (load_plugin found loaded name).1 = loaded ∧
    (load_plugin found loaded name).2.1 = false := by
  rcases hf with hf | hf <;> simp [load_plugin, hnl, hf]

/-- C6 witness: a plugin whose registration entry point raises. -/
theorem load_plugin_failure_witness :
    (load_plugin (fun _ => some .registerRaises) [] "p").1 = [] ∧
    (load_plugin (fun _ => some .registerRaises) [] "p").2.1 = false :=
  load_plugin_failure (fun _ => some .registerRaises) [] "p" rfl (Or.inr rfl)

/-- C7: `unload_plugin` removes the extension from the loaded set
unconditionally: afterwards the name is not loaded, the result does not
depend on whether the `unregister` entry point raises (the error is
caught), and unloading a not-loaded name is a no-op. -/
theorem unload_plugin_unconditional (unreg : String → Bool) (loaded : LoadedSet)
    (name : String) :
    ((unload_plugin unreg loaded name).lookup name = none) ∧
    (∀ unreg2 : String → Bool,
      unload_plugin unreg loaded name = unload_plugin unreg2 loaded name) ∧
    (loaded.lookup name = none → unload_plugin unreg loaded name = loaded) := by
  refine ⟨?_, fun _ => rfl, ?_⟩
  · by_cases hl : (loaded.lookup name).isSome
    · simpa [unload_plugin, hl] using lookup_filter_ne loaded name
    · rw [Bool.not_eq_true] at hl
      simp only [unload_plugin, hl, Bool.false_eq_true, if_false]
      simpa [Option.isSome_iff_exists] using hl
  · intro h
    simp [unload_plugin, h]

/-- C7 witness: unloading a loaded name removes it even though its
`unregister` raises; unloading an absent name is a no-op. -/
theorem unload_plugin_unconditional_witness :
    ((unload_plugin (fun _ => true) [("a", some 1)] "a").lookup "a" = none) ∧
    (unload_plugin (fun _ => true) [("a", some 1)] "b" = [("a", some 1)]) :=
  ⟨(unload_plugin_unconditional (fun _ => true) [("a", some 1)] "a").1,
    (unload_plugin_unconditional (fun _ => true) [("a", some 1)] "b").2.2 (by decide)⟩

/-! ### Registry scan (`scan_plugins`)

Python strings manipulated character by character are embedded as
`List Char`. -/

abbrev Str := List Char

/-- Python `str.strip(chars)` for a character class `p`: drop matching
characters from both ends. -/
def stripChars (p : Char → Bool) (s : Str) : Str :=
  List.rdropWhile p (s.dropWhile p)

/-- The character class of `.strip("\x22' ")` in `scan_plugins`. -/
def quoteSpace (c : Char) : Bool := c == '"' || c == '\'' || c == ' '

def isPrefixList : Str → Str → Bool
  | [], _ => true
  | _ :: _, [] => false
  | a :: as, b :: bs => a == b && isPrefixList as bs

/-- Python substring test `pat in s`. -/
def containsSub (pat : Str) : Str → Bool
  | [] => isPrefixList pat []
  | c :: rest => isPrefixList pat (c :: rest) || containsSub pat rest

/-- `line.split("=", 1)[1]`: everything after the first `=` (callers
guarantee the line contains one). -/
def afterFirstEq (l : Str) : Str := (l.dropWhile (fun c => !(c == '='))).drop 1

/-- One iteration of the scan loop: when the line contains both
`PLUGIN_NAME` and `=`, the name is
`line.split("=",1)[1].strip().strip("\x22' ")`. -/
def lineName (l : Str) : Option Str :=
  if containsSub ("PLUGIN_NAME".toList) l && containsSub ['='] l then
    some (stripChars quoteSpace (stripChars Char.isWhitespace (afterFirstEq l)))
  else none

def findName : List Str → Option Str
  | [] => none
  | l :: rest =>
    match lineName l with
    | some n => some n
    | none => findName rest

/-- The `for _ in range(40)` readline loop of `scan_plugins`. -/
def extractName (lines : List Str) : Option Str := findName (lines.take 40)

/-- `os.path.splitext(fn)[0]` for ordinary dotted filenames (the
leading-dot special case of `splitext` is not exercised by `.py`
candidates with a proper stem). -/
def stem (fn : Str) : Str :=
  if '.' ∈ fn then ((fn.reverse.dropWhile (fun c => !(c == '.'))).drop 1).reverse
  else fn

/-- `fn.endswith(".py")`. -/
def endsWithPy (fn : Str) : Bool := isPrefixList (".py".toList.reverse) fn.reverse

/-- The name recorded for one readable candidate:
`if not name: name = os.path.splitext(fn)[0]` also fires when the
extracted name is the empty string. -/
def computeName (fn : Str) (lines : List Str) : Str :=
  match extractName lines with
  | some n => if n = [] then stem fn else n
  | none => stem fn

/-- Python dict assignment `d[k] = v`: overwrite an existing key in
place, otherwise append (insertion order preserved). -/
def dictInsert (m : List (Str × Str)) (k v : Str) : List (Str × Str) :=
  if m.any (fun p => p.1 == k) then
    m.map (fun p => if p.1 == k then (k, v) else p)
  else m ++ [(k, v)]

/-- `VideoInfoViewer.scan_plugins`.  `entries` lists the plugins
directory: for each filename, `some lines` when the file opens (reads
never raise thanks to `errors="ignore"`), `none` when `open` raises.
Non-`.py` files are skipped by the `continue`; an unreadable file hits
the bare `except: pass` before any `plugins_found` assignment, so it
produces no entry.  The recorded path is modelled by the filename. -/
def scan_plugins (entries : List (Str × Option (List Str))) : List (Str × Str) :=
  entries.foldl
    (fun acc e =>
      if endsWithPy e.1 then
        match e.2 with
        | none => acc
        | some lines => dictInsert acc (computeName e.1 lines) e.1
      else acc)
    []

/-- C8 counterexample: a directory whose single candidate `beta.py` is
unreadable yields an empty mapping, not the stem-named entry
`{"beta": path(beta.py)}` the claim predicts for unreadable files. -/
theorem scan_unreadable_skipped :
    scan_plugins [("beta.py".toList, none)] = [] ∧
    scan_plugins [("beta.py".toList, none)] ≠ [("beta".toList, "beta.py".toList)] := by
  constructor <;> decide

/-- C8 (amended): the extension name comes from at most the first 40
lines; if a line assigning `PLUGIN_NAME` is found, its quoted value
(stripped of quotes and whitespace) is the name, with the filename stem
as fallback when no nonempty name is found; an unreadable file is
skipped entirely (no entry); and the two-file scenario yields
`{"Alpha": a.py, "Beta": Beta.py}`. -/
theorem scan_plugins_spec :
    (∀ lines : List Str, extractName lines = extractName (lines.take 40)) ∧
    (∀ fn : Str, scan_plugins [(fn, none)] = []) ∧
    (∀ (fn : Str) (lines : List Str), endsWithPy fn = true →
      scan_plugins [(fn, some lines)] = [(computeName fn lines, fn)]) ∧
    (∀ (fn : Str) (lines : List Str) (n : Str), extractName lines = some n →
      n ≠ [] → computeName fn lines = n) ∧
    (∀ (fn : Str) (lines : List Str), extractName lines = none →
      computeName fn lines = stem fn) ∧
    scan_plugins
        [("a.py".toList, some ["PLUGIN_NAME = \"Alpha\"".toList]),
         ("Beta.py".toList, some ["# a plugin".toList])] =
      [("Alpha".toList, "a.py".toList), ("Beta".toList, "Beta.py".toList)] := by
  refine ⟨?_, ?_, ?_, ?_, ?_, by decide⟩
  · intro lines
    simp [extractName, List.take_take]
  · intro fn
    by_cases h : endsWithPy fn = true <;> simp [scan_plugins, h]
  · intro fn lines h
    simp [scan_plugins, h, dictInsert]
  · intro fn lines n hx hn
    simp [computeName, hx, hn]
  · intro fn lines hx
    simp [computeName, hx]

/-- C8 witness: concrete instances of the clauses with hypotheses. -/
theorem scan_plugins_spec_witness :
    scan_plugins [("b.py".toList, some [])] =
      [(computeName ("b.py".toList) [], "b.py".toList)] ∧
    computeName ("b.py".toList) ["PLUGIN_NAME = 'X'".toList] = "X".toList ∧
    computeName ("b.py".toList) [] = stem ("b.py".toList) :=
  ⟨scan_plugins_spec.2.2.1 ("b.py".toList) [] (by decide),
    scan_plugins_spec.2.2.2.1 ("b.py".toList) ["PLUGIN_NAME = 'X'".toList]
      ("X".toList) (by decide) (by decide),
    scan_plugins_spec.2.2.2.2.1 ("b.py".toList) [] (by decide)⟩

/-! ### Enabled-set persistence

`_read_enabled_plugins` / `_write_enabled_plugins` and the persistence
part of `PluginHubDialog.bulk_set_enabled`.  The persisted value under
`plugins/enabled` is the raw string, embedded as `Str`. -/

/-- Python `.strip()` (no-argument form). -/
def pyStrip (s : Str) : Str := stripChars Char.isWhitespace s

/-- `VideoInfoViewer._read_enabled_plugins`:
`{s.strip() for s in raw.split(",") if s.strip()}`. -/
def read_enabled_plugins (raw : Str) : Finset Str :=
  (((raw.splitOn ',').map pyStrip).filter (fun s => !(s == []))).toFinset

/-- `VideoInfoViewer._write_enabled_plugins`:
`",".join(sorted(names_set))`. -/
def write_enabled_plugins (names : Finset Str) : Str :=
  List.intercalate [','] (names.sort (· ≤ ·))

/-- Persistence part of `PluginHubDialog.bulk_set_enabled`: read the
current set, add (`on = true`, here `flag = true`) or discard
(`on = false`) each selected name, and write the comma-joined string
back only when something changed (the `changed` flag is set exactly when
the set differs). -/
def bulk_set_enabled (names : List Str) (flag : Bool) (persisted : Str) : Str :=
  let current := read_enabled_plugins persisted
  let current2 :=
    if flag then names.foldl (fun s n => insert n s) current
    else names.foldl (fun s n => s.erase n) current
  if current2 = current then persisted else write_enabled_plugins current2

/-- A name that survives the read parse unchanged: nonempty, comma-free
and already stripped. -/
def CanonName (s : Str) : Prop := s ≠ [] ∧ ',' ∉ s ∧ pyStrip s = s

instance : DecidablePred CanonName := fun s => by
  unfold CanonName
  infer_instance

theorem stripChars_stripChars (p : Char → Bool) (s : Str) :
    stripChars p (stripChars p s) = stripChars p s := by
  have hleft : List.dropWhile p (List.rdropWhile p (s.dropWhile p)) =
      List.rdropWhile p (s.dropWhile p) := by
    rw [List.dropWhile_eq_self_iff]
    intro hl
    have hpre : List.rdropWhile p (s.dropWhile p) <+: s.dropWhile p :=
      List.rdropWhile_prefix p (s.dropWhile p)
    have hlen : 0 < (s.dropWhile p).length :=
      lt_of_lt_of_le hl hpre.length_le
    have hget := List.dropWhile_eq_self_iff.mp (List.dropWhile_idempotent p s) hlen
    have hEq : (List.rdropWhile p (s.dropWhile p)).get ⟨0, hl⟩ =
        (s.dropWhile p).get ⟨0, hlen⟩ := by
      simpa [List.get_eq_getElem] using hpre.getElem hl
    rw [hEq]
    exact hget
  calc stripChars p (stripChars p s)
      = List.rdropWhile p (List.dropWhile p (List.rdropWhile p (s.dropWhile p))) := rfl
    _ = List.rdropWhile p (List.rdropWhile p (s.dropWhile p)) := by rw [hleft]
    _ = List.rdropWhile p (s.dropWhile p) := List.rdropWhile_idempotent p _
    _ = stripChars p s := rfl

theorem mem_of_mem_stripChars {p : Char → Bool} {s : Str} {a : Char}
    (h : a ∈ stripChars p s) : a ∈ s := by
  have h1 : a ∈ s.dropWhile p :=
    (List.rdropWhile_prefix p (s.dropWhile p)).sublist.mem h
  exact (List.dropWhile_sublist p).mem h1

theorem splitOnP_no_sat {α : Type} (p : α → Bool) (l : List α) :
    ∀ s ∈ l.splitOnP p, ∀ a ∈ s, p a = false := by
  induction l with
  | nil =>
    intro s hs
    rw [List.splitOnP_nil] at hs
    simp only [List.mem_singleton] at hs
    subst hs
    intro a ha
    simp at ha
  | cons x xs ih =>
    intro s hs
    rw [List.splitOnP_cons] at hs
    by_cases hx : p x
    · rw [if_pos hx] at hs
      rcases List.mem_cons.mp hs with h | h
      · subst h; intro a ha; simp at ha
      · exact ih s h
    · rw [if_neg hx] at hs
      obtain ⟨hd, tl, hsp⟩ : ∃ hd tl, xs.splitOnP p = hd :: tl := by
        cases hxx : xs.splitOnP p with
        | nil => exact absurd hxx (List.splitOnP_ne_nil p xs)
        | cons hd tl => exact ⟨hd, tl, rfl⟩
      rw [hsp] at hs
      simp only [List.modifyHead, List.mem_cons] at hs
      rcases hs with h | h
      · subst h
        intro a ha
        rcases List.mem_cons.mp ha with h | h
        · subst h
          exact Bool.not_eq_true _ ▸ (by simpa using hx)
        · exact ih hd (hsp ▸ List.mem_cons_self hd tl) a h
      · exact ih s (hsp ▸ List.mem_cons_of_mem hd h)

theorem not_mem_of_mem_splitOn {x : Char} {raw s : Str}
    (hs : s ∈ raw.splitOn x) : x ∉ s := by
  intro hx
  have := splitOnP_no_sat (· == x) raw s (by simpa [List.splitOn] using hs) x hx
  simp at this

/-- Every member of a parsed enabled-set is canonical. -/
theorem read_enabled_plugins_canon (raw : Str) :
    ∀ n ∈ read_enabled_plugins raw, CanonName n := by
  intro n hn
  simp only [read_enabled_plugins, List.mem_toFinset, List.mem_filter,
    List.mem_map] at hn
  obtain ⟨⟨c, hc, hcn⟩, hne⟩ := hn
  refine ⟨by simpa using hne, ?_, ?_⟩
  · intro hmem
    rw [← hcn] at hmem
    exact not_mem_of_mem_splitOn hc (mem_of_mem_stripChars hmem)
  · rw [← hcn]
    exact stripChars_stripChars _ c

/-- Parsing is a left inverse of writing on sets of canonical names. -/
theorem read_write_enabled (T : Finset Str) (h : ∀ n ∈ T, CanonName n) :
    read_enabled_plugins (write_enabled_plugins T) = T := by
  rcases eq_or_ne T ∅ with rfl | hne
  · rw [write_enabled_plugins, Finset.sort_empty]
    decide
  · have hsort : T.sort (· ≤ ·) ≠ [] := by
      intro hnil
      apply hne
      have := Finset.length_sort (s := T) (· ≤ ·)
      rw [hnil] at this
      exact Finset.card_eq_zero.mp (by simpa using this.symm)
    have hx : ∀ l ∈ T.sort (· ≤ ·), ',' ∉ l := fun l hl =>
      (h l (Finset.mem_sort (· ≤ ·) |>.mp hl)).2.1
    rw [read_enabled_plugins, write_enabled_plugins,
      List.splitOn_intercalate _ ',' hx hsort]
    have hmap : (T.sort (· ≤ ·)).map pyStrip = T.sort (· ≤ ·) := by
      rw [List.map_congr_left
        (g := id)
        (fun a ha => (h a (Finset.mem_sort (· ≤ ·) |>.mp ha)).2.2)]
      exact List.map_id _
    rw [hmap]
    have hfil : (T.sort (· ≤ ·)).filter (fun s => !(s == [])) = T.sort (· ≤ ·) := by
      rw [List.filter_eq_self]
      intro a ha
      simpa using (h a (Finset.mem_sort (· ≤ ·) |>.mp ha)).1
    rw [hfil]
    exact Finset.sort_toFinset _ T

theorem foldl_insert_eq (names : List Str) (s : Finset Str) :
    names.foldl (fun acc n => insert n acc) s = s ∪ names.toFinset := by
  induction names generalizing s with
  | nil => simp
  | cons n ns ih =>
    rw [List.foldl_cons, ih]
    ext a
    simp only [Finset.mem_union, Finset.mem_insert, List.toFinset_cons]
    tauto

theorem foldl_erase_eq (names : List Str) (s : Finset Str) :
    names.foldl (fun acc n => acc.erase n) s = s \ names.toFinset := by
  induction names generalizing s with
  | nil => simp
  | cons n ns ih =>
    rw [List.foldl_cons, ih]
    ext a
    simp only [Finset.mem_sdiff, Finset.mem_erase, List.toFinset_cons,
      Finset.mem_insert]
    tauto

theorem bulk_true_read (names : List Str) (persisted : Str)
    (h : ∀ n ∈ names, CanonName n) :
    read_enabled_plugins (bulk_set_enabled names true persisted) =
      read_enabled_plugins persisted ∪ names.toFinset := by
  unfold bulk_set_enabled
  simp only [if_true, foldl_insert_eq]
  by_cases heq : read_enabled_plugins persisted ∪ names.toFinset =
      read_enabled_plugins persisted
  · rw [if_pos heq, heq]
  · rw [if_neg heq]
    refine read_write_enabled _ ?_
    intro n hn
    rcases Finset.mem_union.mp hn with hn | hn
    · exact read_enabled_plugins_canon persisted n hn
    · exact h n (List.mem_toFinset.mp hn)

theorem bulk_false_read (names : List Str) (persisted : Str) :
    read_enabled_plugins (bulk_set_enabled names false persisted) =
      read_enabled_plugins persisted \ names.toFinset := by
  unfold bulk_set_enabled
  simp only [Bool.false_eq_true, if_false, foldl_erase_eq]
  by_cases heq : read_enabled_plugins persisted \ names.toFinset =
      read_enabled_plugins persisted
  · rw [if_pos heq, heq]
  · rw [if_neg heq]
    refine read_write_enabled _ ?_
    intro n hn
    exact read_enabled_plugins_canon persisted n (Finset.mem_sdiff.mp hn).1

/-- C9 counterexample: the comma-free name `" X"` (leading space) does
not round-trip: enabling it persists the raw string `" X"`, which parses
back to `{"X"}`, not `{" X"}` — the read side strips each name. -/
theorem enabled_roundtrip_cex :
    read_enabled_plugins (bulk_set_enabled [[' ', 'X']] true []) ≠
      ({[' ', 'X']} : Finset Str) := by
  have hread : read_enabled_plugins [] = ∅ := by decide
  have hne : ({[' ', 'X']} : Finset Str) ≠ ∅ := by decide
  have hb : bulk_set_enabled [[' ', 'X']] true [] =
      write_enabled_plugins {[' ', 'X']} := by
    unfold bulk_set_enabled
    simp [hread, hne]
  have hw : write_enabled_plugins ({[' ', 'X']} : Finset Str) = [' ', 'X'] := by
    rw [write_enabled_plugins, Finset.sort_singleton]
    simp [List.intercalate]
  rw [hb, hw]
  decide

/-- C9 (amended): for canonical names (nonempty, comma-free and free of
surrounding whitespace — the read side strips names and drops empty
pieces), the enabled-set round-trips: bulk-enabling a list of names and
reading back yields the prior persisted set plus those names, and a
subsequent bulk-disable reading back yields that set minus the disabled
names. -/
theorem enabled_roundtrip (persisted : Str) (names1 names2 : List Str)
    (h1 : ∀ n ∈ names1, CanonName n) :
    read_enabled_plugins (bulk_set_enabled names1 true persisted) =
      read_enabled_plugins persisted ∪ names1.toFinset ∧
    read_enabled_plugins
        (bulk_set_enabled names2 false (bulk_set_enabled names1 true persisted)) =
      (read_enabled_plugins persisted ∪ names1.toFinset) \ names2.toFinset := by
  refine ⟨bulk_true_read names1 persisted h1, ?_⟩
  rw [bulk_false_read, bulk_true_read names1 persisted h1]

/-- C9 witness: enabling `{"X", "Y"}` on an empty store then disabling
`{"X"}`. -/
theorem enabled_roundtrip_witness :
    read_enabled_plugins (bulk_set_enabled [['X'], ['Y']] true []) =
      read_enabled_plugins [] ∪ ([['X'], ['Y']] : List Str).toFinset ∧
    read_enabled_plugins
        (bulk_set_enabled [['X']] false (bulk_set_enabled [['X'], ['Y']] true [])) =
      (read_enabled_plugins [] ∪ ([['X'], ['Y']] : List Str).toFinset) \
        ([['X']] : List Str).toFinset :=
  enabled_roundtrip [] [['X'], ['Y']] [['X']] (by decide)

end VideoInsight
